import Mathlib

/-!
Shallow embedding of the Tempo × Jira utilisation extractor (`tempo.py`):
flattening of raw work-log records into the fixed tabular schema, the
per-URL issue-metadata fetch, the left-join enrichment with its derived
classification columns, the label-bucketing policy, ISO-week bucketing,
and the final utilisation aggregation. Machine dates are days since
1970-01-01 (an `Int`); fractional quantities are rationals; a missing
(`NaN`/`None`) cell is `Option.none`. Theorems at the end check the
specification claims against these definitions.
-/

namespace Tempo

/-- Python `str.lower`, for the ASCII strings this script manipulates. -/
def lowerStr (s : String) : String := ⟨s.data.map Char.toLower⟩

/-- Character-list prefix test (used to define the substring test below). -/
def isPre : List Char → List Char → Bool
  | [], _ => true
  | _ :: _, [] => false
  | p :: ps, c :: cs => p == c && isPre ps cs

/-- Python `pat in s` (substring occurrence), on character lists. -/
def hasSub (pat : List Char) : List Char → Bool
  | [] => isPre pat []
  | c :: cs => isPre pat (c :: cs) || hasSub pat cs

/-- Python `pat in s` (substring occurrence), on strings. -/
def strHasSub (pat s : String) : Bool := hasSub pat.toList s.toList

/-- The `label_to_buckets` rule table from `tempo.py`. The argument is
`none` when the `labels` cell is not a list (for example the null left by
a failed metadata join); the source lower-cases the labels into a Python
set before matching, modelled here by `dedup` of the lower-cased list. -/
def label_to_buckets : Option (List String) → String × String
  | none => ("Unknown", "Unknown")
  | some labels =>
    let lset := (labels.map lowerStr).dedup
    if lset.any (fun l => strHasSub "enhancement" l) then ("Enhancement", ".")
    else if lset.any (fun l => strHasSub "bau" l) then ("BAU", ".")
    else if lset.any (fun l => strHasSub "audit" l) then ("Admin", "Audit")
    else if lset.any (fun l => strHasSub "meeting" l) then ("Admin", "Meeting")
    else if lset.any (fun l => l == "holiday" || l == "vacation") then ("Vacation", "Vacation")
    else ("Unknown", "Unknown")

/-- The classification policy exactly as the spec words it: lower-case the
labels, then apply the first matching rule in the fixed priority order
(enhancement, bau, audit, meeting, exact holiday/vacation, else Unknown). -/
def specBuckets (labels : List String) : String × String :=
  let ls := labels.map lowerStr
  if ls.any (fun l => strHasSub "enhancement" l) then ("Enhancement", ".")
  else if ls.any (fun l => strHasSub "bau" l) then ("BAU", ".")
  else if ls.any (fun l => strHasSub "audit" l) then ("Admin", "Audit")
  else if ls.any (fun l => strHasSub "meeting" l) then ("Admin", "Meeting")
  else if ls.any (fun l => l == "holiday" || l == "vacation") then ("Vacation", "Vacation")
  else ("Unknown", "Unknown")

theorem any_dedup {α : Type} [DecidableEq α] (l : List α) (p : α → Bool) :
    l.dedup.any p = l.any p := by
  induction l with
  | nil => rfl
  | cons a t ih =>
    by_cases h : a ∈ t
    · rw [List.dedup_cons_of_mem h, ih, List.any_cons]
      cases hpa : p a with
      | false => simp
      | true => simp [List.any_eq_true.mpr ⟨a, h, hpa⟩]
    · rw [List.dedup_cons_of_not_mem h, List.any_cons, List.any_cons, ih]

/-- C2: bucketing lower-cases the labels and applies the first matching
rule of the fixed priority table; in particular `["Meeting", "BAU"]`
buckets to category `"BAU"`. -/
theorem labelBucketsFollowPriorityTable :
    (∀ labels : List String, label_to_buckets (some labels) = specBuckets labels) ∧
    label_to_buckets (some ["Meeting", "BAU"]) = ("BAU", ".") := by
  constructor
  · intro labels
    simp only [label_to_buckets, specBuckets, any_dedup]
  · decide

/-- Days since 1970-01-01 of a proleptic-Gregorian civil date, for years
from 1 onward (the standard era/year-of-era computation, specialised to
non-negative eras so only natural-number arithmetic is needed). -/
def daysFromCivil (y m d : Nat) : Int :=
  let yAdj := y - (if m ≤ 2 then 1 else 0)
  let era := yAdj / 400
  let yoe := yAdj % 400
  let mp := (m + 9) % 12
  let doy := (153 * mp + 2) / 5 + d - 1
  let doe := yoe * 365 + yoe / 4 - yoe / 100 + doy
  (Int.ofNat (era * 146097 + doe)) - 719468

/-- Start of the weekly period containing day `t`: models pandas
`.dt.to_period("W").start_time.date()`; the default weekly frequency
`"W" = "W-SUN"` runs Monday through Sunday, so the period start is the
Monday of the week containing `t`. Day 0 (1970-01-01) was a Thursday,
so `(t + 3) % 7` is the Monday-based weekday index of day `t`. -/
def weekStartDays (t : Int) : Int := t - (t + 3) % 7

/-- The spec's description of the `week` field: `m` is the date of the
Monday that begins the ISO calendar week containing `t`, that is, `m`
falls on a Monday (Mondays are the days with `(m + 3) % 7 = 0`, day 0
being a Thursday) and `t` lies within the seven days starting at `m`. -/
def IsIsoWeekMonday (t m : Int) : Prop := (m + 3) % 7 = 0 ∧ m ≤ t ∧ t < m + 7

/-- One raw work-log JSON object, holding exactly the fields `flatten`'s
column map `COL_MAP` reads (as `json_normalize` paths); a `none` models a
field absent from the payload. Dates are days since 1970-01-01 and the
second counts are rationals. -/
structure Raw where
  authorDisplayName : Option String
  authorAccountId : Option String
  startDate : Option Int
  timeSpentSeconds : Option ℚ
  billableSeconds : Option ℚ
  issueSelf : Option String
  issueId : Option Int
  tempoWorklogId : Option Int
  description : Option String
deriving DecidableEq

/-- One row of the frame `flatten` returns: the `EXPECT` columns (with
`user_id` dropped, as in the source) plus the derived `hours` and
`billable_hours`; `user` is always a resolved string, every other column
may carry the missing marker `none` (`pd.NA`). -/
structure FlatRow where
  user : String
  date : Option Int
  sec : Option ℚ
  billable_sec : Option ℚ
  issue_url : Option String
  issue_id : Option Int
  worklog_id : Option Int
  desc : Option String
  hours : Option ℚ
  billable_hours : Option ℚ
deriving DecidableEq

/-- Python `str.strip`: drop leading and trailing whitespace. -/
def pyStrip (s : String) : String :=
  ⟨((s.data.dropWhile Char.isWhitespace).reverse.dropWhile
      Char.isWhitespace).reverse⟩

/-- The `user_id` branch of `_resolve_user`: try the cached
`account_id_to_name` lookup (`lookup` returns `none` on an HTTP error or
a missing `displayName`); a non-empty name wins (Python truthiness of
`if name:`), else the raw identifier; with no identifier, `"Unknown"`. -/
def resolveFromId : Option String → (String → Option String) → String
  | some idStr, lookup =>
    match lookup idStr with
    | some n => if n = "" then idStr else n
    | none => idStr
  | none, _ => "Unknown"

/-- The `_resolve_user` helper of `flatten`: a display name whose `str.strip()` is
non-empty is returned as-is, otherwise fall back to the account id. -/
def resolveUser : Option String → Option String → (String → Option String) → String
  | some u, uid, lookup => if pyStrip u = "" then resolveFromId uid lookup else u
  | none, uid, lookup => resolveFromId uid lookup

/-- The work of `flatten` on one record: rename via `COL_MAP`, fill every
declared column absent from the input with the missing marker, resolve
the `user` column, and derive `hours` and `billable_hours` by dividing
the second counts by 3600 (a null count stays null, as `pd.NA / 3600`). -/
def flattenOne (lookup : String → Option String) (r : Raw) : FlatRow :=
  { user := resolveUser r.authorDisplayName r.authorAccountId lookup
    date := r.startDate
    sec := r.timeSpentSeconds
    billable_sec := r.billableSeconds
    issue_url := r.issueSelf
    issue_id := r.issueId
    worklog_id := r.tempoWorklogId
    desc := r.description
    hours := r.timeSpentSeconds.map (fun s => s / 3600)
    billable_hours := r.billableSeconds.map (fun s => s / 3600) }

/-- The `flatten` stage of `tempo.py`: `json_normalize` yields one frame row per
raw record, and every later step is row-wise, so the result is a map. -/
def flatten (lookup : String → Option String) (records : List Raw) : List FlatRow :=
  records.map (flattenOne lookup)

/-- One issue-metadata row as built by `meta_from_urls` (the `components`
entries are kept as their `name` fields, the only part the script reads). -/
structure MetaRow where
  issue_id : Int
  issue : String
  project_key : String
  project_name : String
  issue_type : String
  labels : List String
  components : List String
  summary : String
  status : Option String
deriving DecidableEq

/-- The `meta_from_urls` loop: one `requests.get` per URL, in order; `fetch u = none`
models an HTTP error for that URL, whose row is skipped by the
`except ... continue`. Returns the metadata rows together with the number
of HTTP requests issued (one per URL — the loop never batches). -/
def meta_from_urls (fetch : String → Option MetaRow) (urls : List String) :
    List MetaRow × Nat :=
  (urls.filterMap fetch, urls.length)

/-- The request count the spec's claimed batching strategy would give:
at most 100 keys per request, so `⌈n / 100⌉` requests for `n` keys. -/
def specBatchRequests (n : Nat) : Nat := (n + 99) / 100

/-- Model of `pandas.unique` on a column: first occurrence of each value, kept in
encounter order (later duplicates of the head are filtered out of the
recursive result). -/
def uniqueFirst : List String → List String
  | [] => []
  | a :: l => a :: (uniqueFirst l).filter (fun b => b ≠ a)

/-- The URL list `enrich` queries: `df_flat["issue_url"].dropna().unique()`. -/
def urlsOf (df : List FlatRow) : List String :=
  uniqueFirst (df.filterMap FlatRow.issue_url)

/-- The metadata frame `enrich` builds for a flat frame. -/
def metaOf (fetch : String → Option MetaRow) (df : List FlatRow) : List MetaRow :=
  (meta_from_urls fetch (urlsOf df)).1

/-- The fixed project-name-to-area table `AREA_MAP`. -/
def AREA_MAP : List (String × String) :=
  [("TransUnion PeopleSoft", "PeopleSoft"), ("Coupa", "Coupa"),
   ("OneStream", "OneStream/PS")]

/-- Model of `merged["project_name"].map(AREA_MAP).fillna("Unknown")` for one row. -/
def areaOf (projectName : Option String) : String :=
  match projectName.bind (fun n => (AREA_MAP.find? (fun p => p.1 == n)).map Prod.snd) with
  | some a => a
  | none => "Unknown"

/-- The derived `module`: the first component name when `components` is a non-empty
list, `"Unknown"` otherwise (in particular on the null of a failed join). -/
def moduleOf : Option (List String) → String
  | some (c :: _) => c
  | _ => "Unknown"

/-- One row of the enriched (`merged`) frame: the flat columns the later
stages read, the metadata columns from the left join (null when the row
found no metadata), and the derived classification columns. -/
structure MergedRow where
  user : String
  date : Option Int
  hours : Option ℚ
  billable_hours : Option ℚ
  worklog_id : Option Int
  issue_id : Option Int
  project_key : Option String
  project_name : Option String
  labels : Option (List String)
  components : Option (List String)
  module : String
  area : String
  category : String
  sub_category : String
  week : Option Int
deriving DecidableEq

/-- A merged row built from flat row `r` and its joined metadata (`none`
for the unmatched case of the left join), including the derived columns
`enrich` adds: `module`, `area`, `category`/`sub_category` and `week`.
In the source the team filter runs before these four assignments, but
they are row-wise and the filter reads only `project_key`, which the join
itself produced, so deriving them at join time is behaviour-preserving. -/
def mkMerged (r : FlatRow) (meta? : Option MetaRow) : MergedRow :=
  { user := r.user
    date := r.date
    hours := r.hours
    billable_hours := r.billable_hours
    worklog_id := r.worklog_id
    issue_id := r.issue_id
    project_key := meta?.map MetaRow.project_key
    project_name := meta?.map MetaRow.project_name
    labels := meta?.map MetaRow.labels
    components := meta?.map MetaRow.components
    module := moduleOf (meta?.map MetaRow.components)
    area := areaOf (meta?.map MetaRow.project_name)
    category := (label_to_buckets (meta?.map MetaRow.labels)).1
    sub_category := (label_to_buckets (meta?.map MetaRow.labels)).2
    week := r.date.map weekStartDays }

/-- Model of `df_flat.merge(meta, on="issue_id", how="left")` for one left row:
every metadata row with the same (non-null) `issue_id` produces one
output row; a left row matching nothing keeps null metadata columns. -/
def mergeOne (meta : List MetaRow) (r : FlatRow) : List MergedRow :=
  match meta.filter (fun m => r.issue_id == some m.issue_id) with
  | [] => [mkMerged r none]
  | hits => hits.map (fun m => mkMerged r (some m))

/-- Model of `re.search` restricted to patterns whose only metacharacter is `.`
(dot matches any single character, everything else is literal): the
pattern matched against the start of the text. This is the semantics
pandas `Series.str.contains(pat)` applies, since it treats the filter
as a regular expression. -/
def reMatchHere : List Char → List Char → Bool
  | [], _ => true
  | _ :: _, [] => false
  | p :: ps, c :: cs => (p == '.' || p == c) && reMatchHere ps cs

/-- Model of `re.search`: the pattern matches at some position of the text. -/
def reSearch (pat : List Char) : List Char → Bool
  | [] => reMatchHere pat []
  | c :: cs => reMatchHere pat (c :: cs) || reSearch pat cs

/-- The team filter of `enrich`: with `TEAM_FILTER` set to a truthy
(non-empty) string, keep the rows whose `project_key` matches it under
`Series.str.contains(tf, na=False)` — a regular-expression search in
which a null `project_key` never matches; otherwise keep every row. -/
def teamFilter : Option String → List MergedRow → List MergedRow
  | none, rows => rows
  | some t, rows =>
    if t = "" then rows
    else
      rows.filter (fun m =>
        match m.project_key with
        | some pk => reSearch t.toList pk.toList
        | none => false)

/-- The groupby key of the utilisation aggregation. -/
structure GKey where
  area : String
  project_key : String
  module : String
  category : String
  sub_category : String
  user : String
  week : Int
deriving DecidableEq

/-- The group key of a merged row, or `none` when one of its key columns
is null — pandas `groupby` silently drops such rows. Of the seven key
columns only `project_key` (null after an unmatched left join) and `week`
(null when the record has no date) can be null: `area`, `module`,
`category`, `sub_category` are filled with `"Unknown"` defaults and
`user` is always resolved to a string. -/
def groupKey (m : MergedRow) : Option GKey :=
  match m.project_key, m.week with
  | some pk, some w =>
    some ⟨m.area, pk, m.module, m.category, m.sub_category, m.user, w⟩
  | _, _ => none

/-- Round a rational to the nearest integer, ties to even — the rounding
rule numpy (and hence pandas `.round`) applies. -/
def roundHalfEven (q : ℚ) : Int :=
  if q - ⌊q⌋ < 1 / 2 then ⌊q⌋
  else if 1 / 2 < q - ⌊q⌋ then ⌊q⌋ + 1
  else if Even ⌊q⌋ then ⌊q⌋ else ⌊q⌋ + 1

/-- Pandas `.round(1)`: round to one decimal place. -/
def round1 (q : ℚ) : ℚ := (roundHalfEven (q * 10) : ℚ) / 10

/-- One row of the utilisation frame. -/
structure UtilRow where
  key : GKey
  hours : ℚ
  util_pct : ℚ
deriving DecidableEq

/-- The summed `hours` of one group: pandas' skip-NA sum, a null hour
contributing nothing. -/
def bucketSum (rows : List MergedRow) (k : GKey) : ℚ :=
  ((rows.filter (fun m => groupKey m == some k)).map
    (fun m => m.hours.getD 0)).sum

/-- The utilisation aggregation of `enrich`: group the merged rows by the
seven-column key (dropping rows with a null key column, as pandas
`groupby` does), sum `hours` within each group, and derive
`util_pct = (hours / 40 * 100).round(1)`. Pandas emits the groups in
sorted key order; this embedding uses first-appearance order, which no
claim distinguishes. -/
def utilOf (rows : List MergedRow) : List UtilRow :=
  ((rows.filterMap groupKey).dedup).map (fun k =>
    ⟨k, bucketSum rows k, round1 (bucketSum rows k / 40 * 100)⟩)

/-- The `enrich` stage of `tempo.py`: fetch metadata for the distinct
non-null issue URLs, left-join it onto the flat frame by `issue_id`,
apply the team filter, derive the classification columns, and aggregate,
returning `(util, merged)` as the source does — wrapped in `some`. When
the fetched metadata set is empty (every per-URL request failed, or there
were no URLs at all), `pd.DataFrame([])` has no columns and the source
raises `KeyError` at `meta["issue_id"].astype("Int64")` before anything
else happens; that crash is `none`. -/
def enrich (fetch : String → Option MetaRow) (tf : Option String)
    (df : List FlatRow) : Option (List UtilRow × List MergedRow) :=
  match metaOf fetch df with
  | [] => none
  | m :: ms =>
    let merged := teamFilter tf (df.flatMap (mergeOne (m :: ms)))
    some (utilOf merged, merged)

theorem enrich_eq_some {fetch : String → Option MetaRow} {tf : Option String}
    {df : List FlatRow} {res : List UtilRow × List MergedRow}
    (h : enrich fetch tf df = some res) :
    metaOf fetch df ≠ [] ∧
    res.2 = teamFilter tf (df.flatMap (mergeOne (metaOf fetch df))) ∧
    res.1 = utilOf (teamFilter tf (df.flatMap (mergeOne (metaOf fetch df)))) := by
  rcases hm : metaOf fetch df with _ | ⟨m, ms⟩
  · unfold enrich at h
    rw [hm] at h
    exact Option.noConfusion h
  · unfold enrich at h
    rw [hm] at h
    obtain rfl : res
        = (utilOf (teamFilter tf (df.flatMap (mergeOne (m :: ms)))),
           teamFilter tf (df.flatMap (mergeOne (m :: ms)))) :=
      (Option.some.inj h).symm
    exact ⟨List.cons_ne_nil m ms, rfl, rfl⟩

theorem mem_uniqueFirst {b : String} :
    ∀ {l : List String}, b ∈ uniqueFirst l → b ∈ l := by
  intro l
  induction l with
  | nil => exact fun h => absurd h (List.not_mem_nil b)
  | cons a t ih =>
    intro hb
    rcases List.mem_cons.mp hb with h | h
    · exact h ▸ List.mem_cons_self a t
    · exact List.mem_cons_of_mem a (ih (List.mem_of_mem_filter h))

theorem nodup_uniqueFirst : ∀ l : List String, (uniqueFirst l).Nodup := by
  intro l
  induction l with
  | nil => exact List.nodup_nil
  | cons a t ih =>
    refine List.nodup_cons.mpr ⟨fun hmem => ?_, ih.filter _⟩
    have := List.of_mem_filter hmem
    simp at this

/-- Fixture: an account-name lookup oracle on which every call fails. -/
def netNone : String → Option String := fun _ => none

/-- Fixture: a raw record with every optional field missing. -/
def emptyRaw : Raw := ⟨none, none, none, none, none, none, none, none, none⟩

/-- The row `flatten` produces from `emptyRaw`: every schema column is
present and carries the missing marker, except `user`, which falls back
to the literal `"Unknown"`. -/
def placeholderRow : FlatRow :=
  ⟨"Unknown", none, none, none, none, none, none, none, none, none⟩

/-- C5: for every lookup oracle and record list, `flatten` returns exactly
one row per input record, and every declared output column is present in
every row (the row type carries all of them, mirroring the
`df.get(c, pd.NA)` back-fill); on the record with every field missing it
returns the all-placeholder row rather than raising. -/
theorem flattenOneRowPerRecordAllColumns :
    (∀ (lookup : String → Option String) (records : List Raw),
      (flatten lookup records).length = records.length) ∧
    flatten netNone [emptyRaw] = [placeholderRow] := by
  constructor
  · intro lookup records
    simp [flatten]
  · rfl

/-- C7: the `hours` column of `flatten`'s output is, row for row, the
record's `timeSpentSeconds` divided by 3600, and `billable_hours` its
`billableSeconds` divided by 3600 — exact rational division, a zero
count giving zero and a null count staying null. -/
theorem hoursAreSecondsDividedBy3600 :
    ∀ (lookup : String → Option String) (records : List Raw),
      (flatten lookup records).map FlatRow.hours
        = records.map (fun r => r.timeSpentSeconds.map (fun s => s / 3600)) ∧
      (flatten lookup records).map FlatRow.billable_hours
        = records.map (fun r => r.billableSeconds.map (fun s => s / 3600)) := by
  intro lookup records
  constructor <;> simp [flatten, flattenOne]

/-- C3 as stated is false: `meta_from_urls` loops over the URLs issuing
one request each, so two keys cost two requests where the claimed
100-per-request batching would cost one. -/
theorem metaFetchBatchingCounterexample :
    (meta_from_urls (fun _ => none)
        ["https://jira/issue/1", "https://jira/issue/2"]).2 = 2 ∧
    specBatchRequests 2 = 1 ∧ (2 : Nat) ≠ 1 := by
  exact ⟨rfl, rfl, by decide⟩

/-- C3 amended: the enricher queries the deduplicated issue URLs of the
flat frame, but issues exactly one HTTP request per URL — per-key calls,
never a multi-key batch. -/
theorem metaFetchOneRequestPerKey :
    (∀ (fetch : String → Option MetaRow) (urls : List String),
      (meta_from_urls fetch urls).2 = urls.length) ∧
    (∀ df : List FlatRow, (urlsOf df).Nodup) := by
  exact ⟨fun _ _ => rfl, fun df => nodup_uniqueFirst _⟩

/-- Fixture: a fully-populated raw record — 20 hours (72000 seconds)
logged by Alice on Wednesday 2024-06-12 against issue 1. -/
def rawA : Raw :=
  { authorDisplayName := some "Alice"
    authorAccountId := none
    startDate := some (daysFromCivil 2024 6 12)
    timeSpentSeconds := some 72000
    billableSeconds := some 36000
    issueSelf := some "https://jira/issue/1"
    issueId := some 1
    tempoWorklogId := some 11
    description := some "work" }

/-- Fixture: the flat frame holding just `rawA`. -/
def dfA : List FlatRow := flatten netNone [rawA]

/-- Fixture: metadata for issue 1, bucketing to BAU in area Coupa. -/
def metaA : MetaRow :=
  { issue_id := 1
    issue := "ABC-1"
    project_key := "ABC"
    project_name := "Coupa"
    issue_type := "Task"
    labels := ["BAU"]
    components := ["Billing"]
    summary := "s"
    status := some "Done" }

/-- Fixture: a fetch oracle resolving issue 1 and failing on anything else. -/
def fetchA : String → Option MetaRow :=
  fun u => if u = "https://jira/issue/1" then some metaA else none

/-- Fixture: a fetch oracle on which every request fails with an HTTP error. -/
def fetchNone : String → Option MetaRow := fun _ => none

/-- Fixture: `rawA` flattened. -/
def flatA : FlatRow := flattenOne netNone rawA

/-- Fixture: `flatA` joined with its resolved metadata. -/
def mergedA : MergedRow := mkMerged flatA (some metaA)

/-- Fixture: a second raw record — 5 hours (18000 seconds) logged by Bob
on the same Wednesday against issue 2, whose metadata fetch will fail. -/
def rawB : Raw :=
  { authorDisplayName := some "Bob"
    authorAccountId := none
    startDate := some (daysFromCivil 2024 6 12)
    timeSpentSeconds := some 18000
    billableSeconds := some 18000
    issueSelf := some "https://jira/issue/2"
    issueId := some 2
    tempoWorklogId := some 12
    description := some "more work" }

/-- Fixture: `rawB` flattened. -/
def flatB : FlatRow := flattenOne netNone rawB

/-- Fixture: the flat frame holding `rawA` and `rawB`. -/
def dfB : List FlatRow := flatten netNone [rawA, rawB]

/-- Fixture: the merged frame of the `fetchA`/`dfA` run. -/
def mergedRunA : List MergedRow := [mkMerged flatA (some metaA)]

/-- Fixture: the merged frame of the `fetchA`/`dfB` run — issue 1 resolved,
issue 2 unresolved (its fetch failed but issue 1's metadata keeps the
metadata frame non-empty, so the run completes). -/
def mergedRunB : List MergedRow := [mkMerged flatA (some metaA), mkMerged flatB none]

/-- Fixture: the group key of the single aggregated row of the `fetchA`
runs. -/
def gKeyA : GKey :=
  ⟨"Coupa", "ABC", "Billing", "BAU", ".", "Alice",
    weekStartDays (daysFromCivil 2024 6 12)⟩

/-- Fixture: the single utilisation row of the `fetchA`/`dfA` run. -/
def utilRowA : UtilRow :=
  ⟨gKeyA, bucketSum mergedRunA gKeyA,
    round1 (bucketSum mergedRunA gKeyA / 40 * 100)⟩

/-- Fixture: the full result of the `fetchA`/`dfA` run. -/
def enrichResA : List UtilRow × List MergedRow := ([utilRowA], mergedRunA)

/-- Fixture: the full result of the `fetchA`/`dfB` run. -/
def enrichResB : List UtilRow × List MergedRow := (utilOf mergedRunB, mergedRunB)

theorem enrichA_eq : enrich fetchA none dfA = some enrichResA := rfl

theorem enrichB_eq : enrich fetchA none dfB = some enrichResB := rfl

theorem mem_merged_shape (fetch : String → Option MetaRow) (tf : Option String)
    (df : List FlatRow) (mr : MergedRow)
    (h : mr ∈ teamFilter tf (df.flatMap (mergeOne (metaOf fetch df)))) :
    ∃ r ∈ df, ∃ meta? : Option MetaRow, mr = mkMerged r meta? := by
  have h2 : mr ∈ df.flatMap (mergeOne (metaOf fetch df)) := by
    cases tf with
    | none => exact h
    | some t =>
      by_cases ht : t = ""
      · simpa [teamFilter, ht] using h
      · have h3 : mr ∈ List.filter
            (fun m => match m.project_key with
              | some pk => reSearch t.toList pk.toList
              | none => false)
            (df.flatMap (mergeOne (metaOf fetch df))) := by
          simpa [teamFilter, ht] using h
        exact List.mem_of_mem_filter h3
  rcases List.mem_flatMap.mp h2 with ⟨r, hr, hmr⟩
  refine ⟨r, hr, ?_⟩
  unfold mergeOne at hmr
  rcases hfilter : (metaOf fetch df).filter (fun m => r.issue_id == some m.issue_id)
    with _ | ⟨m, ms⟩
  · rw [hfilter] at hmr
    exact ⟨none, (List.mem_singleton.mp hmr)⟩
  · rw [hfilter] at hmr
    rcases List.mem_map.mp hmr with ⟨m1, _, hm1⟩
    exact ⟨some m1, hm1.symm⟩

/-- C6: every enriched row's `week` is the Monday that begins the ISO
calendar week containing the row's `date`, and the concrete Wednesday
2024-06-12 buckets to the week-start Monday 2024-06-10. -/
theorem weekIsIsoWeekMonday :
    (∀ (fetch : String → Option MetaRow) (tf : Option String)
      (df : List FlatRow) (res : List UtilRow × List MergedRow),
      enrich fetch tf df = some res → ∀ mr ∈ res.2, ∀ t : Int, mr.date = some t →
        ∃ m : Int, mr.week = some m ∧ IsIsoWeekMonday t m) ∧
    weekStartDays (daysFromCivil 2024 6 12) = daysFromCivil 2024 6 10 := by
  constructor
  · intro fetch tf df res hres mr h t ht
    rw [(enrich_eq_some hres).2.1] at h
    rcases mem_merged_shape fetch tf df mr h with ⟨r, _, meta?, rfl⟩
    have hd : r.date = some t := ht
    refine ⟨weekStartDays t, ?_, ?_, ?_, ?_⟩
    · simp [mkMerged, hd]
    · unfold weekStartDays
      omega
    · unfold weekStartDays
      omega
    · unfold weekStartDays
      omega
  · decide

/-- C4 as stated is false in two corners. When every lookup fails, the
empty metadata frame crashes `enrich` with a `KeyError` at
`meta["issue_id"]` — the run does not continue and no enriched output
exists. And on a run that does complete (issue 1 resolved, issue 2 not),
setting `TEAM_FILTER` removes the failed record: its row (Bob's) is
absent from the enriched output, which holds only Alice's. -/
theorem unresolvedRecordLostCounterexample :
    enrich fetchNone none dfA = none ∧
    dfA ≠ [] ∧
    (enrich fetchA (some "ABC") dfB).map Prod.snd
      = some [mkMerged flatA (some metaA)] ∧
    (mkMerged flatB none).user = "Bob" ∧
    (mkMerged flatA (some metaA)).user = "Alice" ∧
    ("Bob" : String) ≠ "Alice" := by
  exact ⟨rfl, by decide, rfl, rfl, rfl, by decide⟩

/-- C4 amended: when the metadata lookup for an issue fails, its key is
dropped from the metadata set; provided the run completes at all (some
other issue's metadata was fetched — an entirely empty metadata frame
crashes the run) and `TEAM_FILTER` is unset, every record referencing the
failed issue still appears in the enriched output, left-joined to
all-null metadata columns, with `module`, `area`, `category` (and
`sub_category`) equal to `"Unknown"`, its hours intact. -/
theorem unresolvedRecordKeptWithUnknowns (fetch : String → Option MetaRow)
    (df : List FlatRow) (res : List UtilRow × List MergedRow) (r : FlatRow)
    (hres : enrich fetch none df = some res) (hr : r ∈ df)
    (hno : ∀ m ∈ metaOf fetch df, some m.issue_id ≠ r.issue_id) :
    mkMerged r none ∈ res.2 ∧
    (mkMerged r none).project_key = none ∧
    (mkMerged r none).module = "Unknown" ∧
    (mkMerged r none).area = "Unknown" ∧
    (mkMerged r none).category = "Unknown" ∧
    (mkMerged r none).sub_category = "Unknown" ∧
    (mkMerged r none).hours = r.hours := by
  refine ⟨?_, rfl, rfl, rfl, rfl, rfl, rfl⟩
  rw [(enrich_eq_some hres).2.1]
  show mkMerged r none ∈ df.flatMap (mergeOne (metaOf fetch df))
  refine List.mem_flatMap.mpr ⟨r, hr, ?_⟩
  have hfilter : (metaOf fetch df).filter (fun m => r.issue_id == some m.issue_id) = [] := by
    refine List.filter_eq_nil_iff.mpr ?_
    intro m hm
    simp only [beq_iff_eq]
    exact fun he => (hno m hm) he.symm
  unfold mergeOne
  rw [hfilter]
  exact List.mem_singleton.mpr rfl

/-- Witness for the amended C4 at a concrete input: on the `fetchA`/`dfB`
run issue 1 resolves (so the run completes) while `flatB`'s issue 2 does
not, and Bob's record survives enrichment with `"Unknown"`
classification columns. -/
theorem unresolvedRecordKeptWithUnknowns_witness :
    mkMerged flatB none ∈ enrichResB.2 ∧
    (mkMerged flatB none).category = "Unknown" := by
  have hin : flatB ∈ dfB := by
    unfold dfB flatten
    simp only [List.map_cons, List.map_nil]
    exact List.mem_cons_of_mem _ (List.mem_singleton.mpr rfl)
  have h := unresolvedRecordKeptWithUnknowns fetchA dfB enrichResB flatB
    enrichB_eq hin
    (by
      have hmeta : metaOf fetchA dfB = [metaA] := rfl
      rw [hmeta]
      intro m hm
      rw [List.mem_singleton.mp hm]
      decide)
  exact ⟨h.1, h.2.2.2.2.1⟩

theorem sum_map_ite_eq {K : Type} [DecidableEq K] {ks : List K}
    (hnd : ks.Nodup) {k0 : K} (hk : k0 ∈ ks) (c : ℚ) :
    (ks.map (fun k => if k0 = k then c else 0)).sum = c := by
  induction ks with
  | nil => exact absurd hk (List.not_mem_nil k0)
  | cons a t ih =>
    rcases List.mem_cons.mp hk with rfl | hk0
    · simp only [List.map_cons, List.sum_cons]
      have hz : ∀ x ∈ t.map (fun k => if k0 = k then c else 0), x = 0 := by
        intro x hx
        rcases List.mem_map.mp hx with ⟨k, hkt, rfl⟩
        have hne : k0 ≠ k := fun he => (List.nodup_cons.mp hnd).1 (he ▸ hkt)
        simp [hne]
      rw [List.sum_eq_zero hz, add_zero]
      simp
    · have hne : k0 ≠ a := by
        intro he
        exact (List.nodup_cons.mp hnd).1 (he ▸ hk0)
      simp only [List.map_cons, List.sum_cons, if_neg hne]
      rw [ih (List.nodup_cons.mp hnd).2 hk0, zero_add]

theorem sum_buckets {α K : Type} [DecidableEq K] (keyOf : α → Option K)
    (f : α → ℚ) :
    ∀ (rs : List α) (ks : List K), ks.Nodup →
      (∀ r ∈ rs, ∀ k, keyOf r = some k → k ∈ ks) →
      (ks.map (fun k =>
        ((rs.filter (fun x => keyOf x == some k)).map f).sum)).sum
        = ((rs.filter (fun x => (keyOf x).isSome)).map f).sum := by
  intro rs
  induction rs with
  | nil =>
    intro ks _ _
    simp
  | cons r rs ih =>
    intro ks hnd hcov
    have hstep : ∀ k ∈ ks,
        (((r :: rs).filter (fun x => keyOf x == some k)).map f).sum
          = (if keyOf r = some k then f r else 0)
            + ((rs.filter (fun x => keyOf x == some k)).map f).sum := by
      intro k _
      by_cases h : keyOf r = some k
      · simp [List.filter_cons, h]
      · simp [List.filter_cons, h]
    rw [List.map_congr_left hstep, List.sum_map_add,
      ih ks hnd (fun x hx => hcov x (List.mem_cons_of_mem r hx))]
    rcases hkr : keyOf r with _ | k0
    · have hz : ∀ x ∈ ks.map (fun k => if (none : Option K) = some k then f r else 0),
          x = 0 := by
        intro x hx
        rcases List.mem_map.mp hx with ⟨k, _, rfl⟩
        simp
      rw [List.sum_eq_zero hz, zero_add, List.filter_cons]
      simp [hkr]
    · have hmem : k0 ∈ ks := hcov r (List.mem_cons_self r rs) k0 hkr
      have hsum : (ks.map (fun k => if some k0 = some k then f r else 0)).sum = f r := by
        have he : ∀ k ∈ ks,
            (if some k0 = some k then f r else 0) = (if k0 = k then f r else 0) := by
          intro k _
          by_cases h : k0 = k
          · simp [h]
          · simp [h]
        rw [List.map_congr_left he, sum_map_ite_eq hnd hmem]
      rw [hsum, List.filter_cons]
      simp [hkr]

theorem utilOf_sum (rows : List MergedRow) :
    ((utilOf rows).map UtilRow.hours).sum
      = ((rows.filter (fun m => (groupKey m).isSome)).map
          (fun m => m.hours.getD 0)).sum := by
  unfold utilOf
  rw [List.map_map]
  exact sum_buckets groupKey (fun m => m.hours.getD 0) rows _
    (List.nodup_dedup _)
    (fun r hr k hk => List.mem_dedup.mpr (List.mem_filterMap.mpr ⟨r, hr, hk⟩))

theorem groupKey_fields {m : MergedRow} {k : GKey} (h : groupKey m = some k) :
    k.user = m.user ∧ m.week = some k.week ∧ m.project_key = some k.project_key := by
  unfold groupKey at h
  rcases hpk : m.project_key with _ | pk <;> rcases hw : m.week with _ | w <;>
    rw [hpk, hw] at h <;> cases h
  exact ⟨rfl, rfl, rfl⟩

theorem utilOf_preserves (rows : List MergedRow)
    (h : ∀ mr ∈ rows, (groupKey mr).isSome) :
    ((utilOf rows).map UtilRow.hours).sum
      = (rows.map (fun m => m.hours.getD 0)).sum ∧
    ∀ (u : String) (w : Int),
      (((utilOf rows).filter
          (fun row => row.key.user == u && row.key.week == w)).map
        UtilRow.hours).sum
        = ((rows.filter (fun m => m.user == u && m.week == some w)).map
            (fun m => m.hours.getD 0)).sum := by
  constructor
  · rw [utilOf_sum rows, List.filter_eq_self.mpr h]
  · intro u w
    have hks : ∀ k ∈ ((rows.filterMap groupKey).dedup).filter
        (fun k => k.user == u && k.week == w), k.user = u ∧ k.week = w := by
      intro k hk
      have h2 := (List.mem_filter.mp hk).2
      simpa [Bool.and_eq_true, beq_iff_eq] using h2
    have hnd2 : (((rows.filterMap groupKey).dedup).filter
        (fun k => k.user == u && k.week == w)).Nodup :=
      (List.nodup_dedup _).filter _
    have hcov2 : ∀ x ∈ rows, ∀ k : GKey,
        (if x.user = u ∧ x.week = some w then groupKey x else none) = some k →
        k ∈ ((rows.filterMap groupKey).dedup).filter
          (fun k => k.user == u && k.week == w) := by
      intro x hx k hk
      by_cases hc : x.user = u ∧ x.week = some w
      · rw [if_pos hc] at hk
        refine List.mem_filter.mpr
          ⟨List.mem_dedup.mpr (List.mem_filterMap.mpr ⟨x, hx, hk⟩), ?_⟩
        obtain ⟨hku, hkw, _⟩ := groupKey_fields hk
        have hw2 : k.week = w := by
          have h3 := hc.2
          rw [hkw] at h3
          exact Option.some.inj h3
        have hu2 : k.user = u := by rw [hku, hc.1]
        rw [Bool.and_eq_true]
        exact ⟨beq_iff_eq.mpr hu2, beq_iff_eq.mpr hw2⟩
      · rw [if_neg hc] at hk
        cases hk
    have hmain := sum_buckets
      (fun m => if m.user = u ∧ m.week = some w then groupKey m else none)
      (fun m => m.hours.getD 0) rows
      (((rows.filterMap groupKey).dedup).filter
        (fun k => k.user == u && k.week == w))
      hnd2 hcov2
    have hA : ∀ k ∈ ((rows.filterMap groupKey).dedup).filter
        (fun k => k.user == u && k.week == w),
        ((rows.filter (fun x =>
            (if x.user = u ∧ x.week = some w then groupKey x else none)
              == some k)).map (fun m => m.hours.getD 0)).sum
          = bucketSum rows k := by
      intro k hk
      obtain ⟨hku, hkw⟩ := hks k hk
      unfold bucketSum
      congr 1
      apply congrArg
      apply List.filter_congr
      intro x hx
      by_cases hgx : groupKey x = some k
      · obtain ⟨hu2, hw2, _⟩ := groupKey_fields hgx
        have hc : x.user = u ∧ x.week = some w :=
          ⟨by rw [← hu2, hku], by rw [hw2, hkw]⟩
        rw [if_pos hc]
      · by_cases hc : x.user = u ∧ x.week = some w
        · rw [if_pos hc]
        · rw [if_neg hc]
          have h5 : (groupKey x == some k) = false := beq_eq_false_iff_ne.mpr hgx
          rw [h5]
          rfl
    have hB : rows.filter (fun x =>
        (if x.user = u ∧ x.week = some w then groupKey x else none).isSome)
        = rows.filter (fun x => x.user == u && x.week == some w) := by
      apply List.filter_congr
      intro x hx
      by_cases hc : x.user = u ∧ x.week = some w
      · rw [if_pos hc]
        have h4 := h x hx
        have h7 : (x.user == u && x.week == some w) = true := by
          rw [Bool.and_eq_true]
          exact ⟨beq_iff_eq.mpr hc.1, beq_iff_eq.mpr hc.2⟩
        rw [h4, h7]
      · rw [if_neg hc]
        have h6 : (x.user == u && x.week == some w) = false := by
          refine Bool.eq_false_iff.mpr (fun hcc => hc ?_)
          rw [Bool.and_eq_true] at hcc
          exact ⟨eq_of_beq hcc.1, eq_of_beq hcc.2⟩
        rw [h6]
        rfl
    rw [List.map_congr_left hA, hB] at hmain
    have hL : (utilOf rows).filter
        (fun row => row.key.user == u && row.key.week == w)
        = (((rows.filterMap groupKey).dedup).filter
            (fun k => k.user == u && k.week == w)).map
          (fun k => (⟨k, bucketSum rows k,
            round1 (bucketSum rows k / 40 * 100)⟩ : UtilRow)) := by
      unfold utilOf
      rw [List.filter_map]
      rfl
    rw [hL, List.map_map]
    exact hmain

/-- C1 amended: provided every record reaching the aggregator has a
non-null group key — in particular its metadata lookup succeeded (so
`project_key` is non-null) and it carries a date — the aggregation is a
sum-preserving reduction: total `UtilisationRow.hours` equals total
enriched-record hours, and for each (user, week) pair the utilisation
hours sharing that user and week sum to the enriched hours sharing them. -/
theorem aggregationPreservesHours (fetch : String → Option MetaRow)
    (tf : Option String) (df : List FlatRow)
    (res : List UtilRow × List MergedRow)
    (hres : enrich fetch tf df = some res)
    (h : ∀ mr ∈ res.2, (groupKey mr).isSome) :
    (res.1.map UtilRow.hours).sum
      = (res.2.map (fun m => m.hours.getD 0)).sum ∧
    ∀ (u : String) (w : Int),
      (((res.1.filter
          (fun row => row.key.user == u && row.key.week == w)).map
        UtilRow.hours).sum
        = (((res.2.filter
            (fun m => m.user == u && m.week == some w)).map
              (fun m => m.hours.getD 0)).sum)) := by
  obtain ⟨-, h2, h1⟩ := enrich_eq_some hres
  rw [h2] at h
  rw [h1, h2]
  exact utilOf_preserves _ h

/-- C1 as stated is false on the code: on the completing run with one
resolved record (Alice, 20 hours) and one record whose metadata lookup
failed (Bob, 5 hours), the groupby drops Bob's null `project_key`, so
the utilisation output sums to 20 while the enriched output holds 25. -/
theorem aggregationDropsNullKeyHours :
    (enrich fetchA none dfB).map (fun res => (res.1.map UtilRow.hours).sum)
      = some 20 ∧
    (enrich fetchA none dfB).map (fun res => (res.2.map (fun m => m.hours.getD 0)).sum)
      = some 25 ∧
    (20 : ℚ) ≠ 25 := by
  refine ⟨?_, ?_, by norm_num⟩
  · rw [enrichB_eq]
    show some ((enrichResB.1.map UtilRow.hours).sum) = some 20
    have hsum : (enrichResB.1.map UtilRow.hours).sum
        = (72000 : ℚ) / 3600 + 0 + 0 := rfl
    rw [hsum]
    norm_num
  · rw [enrichB_eq]
    show some ((enrichResB.2.map (fun m => m.hours.getD 0)).sum) = some 25
    have hsum : (enrichResB.2.map (fun m => m.hours.getD 0)).sum
        = (72000 : ℚ) / 3600 + ((18000 : ℚ) / 3600 + 0) := rfl
    rw [hsum]
    norm_num

/-- Witness for the amended C1 at a concrete input: on the completing run
whose single record resolved its metadata, the total utilisation hours
equal the total enriched hours. -/
theorem aggregationPreservesHours_witness :
    (enrichResA.1.map UtilRow.hours).sum
      = (enrichResA.2.map (fun m => m.hours.getD 0)).sum := by
  refine (aggregationPreservesHours fetchA none dfA enrichResA enrichA_eq ?_).1
  intro mr hmr
  rw [List.mem_singleton.mp hmr]
  rfl

/-- C8: every utilisation row's `util_pct` equals its summed hours divided
by the fixed weekly capacity 40, times 100, rounded to one decimal place
(ties to even, as numpy rounds); concretely 20 hours give 50.0 and 13.333
hours give 33.3. -/
theorem utilPctIsRoundedShareOfCapacity :
    (∀ (fetch : String → Option MetaRow) (tf : Option String)
      (df : List FlatRow) (res : List UtilRow × List MergedRow),
      enrich fetch tf df = some res → ∀ row ∈ res.1,
        row.util_pct = round1 (row.hours / 40 * 100)) ∧
    round1 ((20 : ℚ) / 40 * 100) = 50 ∧
    round1 ((13333 / 1000 : ℚ) / 40 * 100) = 333 / 10 := by
  refine ⟨?_, ?_, ?_⟩
  · intro fetch tf df res hres row hrow
    rw [(enrich_eq_some hres).2.2] at hrow
    rcases List.mem_map.mp hrow with ⟨k, _, rfl⟩
    rfl
  · unfold round1 roundHalfEven
    norm_num
  · unfold round1 roundHalfEven
    norm_num

/-- Witness for C8 at a concrete input: the single utilisation row of the
`fetchA`/`dfA` run satisfies the `util_pct` formula. -/
theorem utilPctIsRoundedShareOfCapacity_witness :
    utilRowA.util_pct = round1 (utilRowA.hours / 40 * 100) := by
  refine utilPctIsRoundedShareOfCapacity.1 fetchA none dfA enrichResA
    enrichA_eq utilRowA ?_
  exact List.mem_singleton.mpr rfl

/-- Witness for C6 at a concrete input: via the enriched `fetchA`/`dfA`
run, Monday 2024-06-10 is the ISO-week Monday of Wednesday 2024-06-12. -/
theorem weekIsIsoWeekMonday_witness :
    IsIsoWeekMonday (daysFromCivil 2024 6 12) (daysFromCivil 2024 6 10) := by
  obtain ⟨m, hm, hiso⟩ := weekIsIsoWeekMonday.1 fetchA none dfA enrichResA
    enrichA_eq (mkMerged flatA (some metaA))
    (List.mem_singleton.mpr rfl)
    (daysFromCivil 2024 6 12) rfl
  have hw : (mkMerged flatA (some metaA)).week
      = some (daysFromCivil 2024 6 10) := by
    have h1 : (mkMerged flatA (some metaA)).week
        = some (weekStartDays (daysFromCivil 2024 6 12)) := rfl
    rw [h1, weekIsIsoWeekMonday.2]
  rw [hm] at hw
  rw [← Option.some.inj hw]
  exact hiso

theorem reMatchHere_eq_isPre :
    ∀ pat : List Char, (∀ c ∈ pat, c ≠ '.') →
      ∀ l : List Char, reMatchHere pat l = isPre pat l := by
  intro pat
  induction pat with
  | nil =>
    intro _ l
    cases l <;> rfl
  | cons p ps ih =>
    intro hpat l
    cases l with
    | nil => rfl
    | cons c cs =>
      have hp : (p == '.') = false :=
        beq_eq_false_iff_ne.mpr (hpat p (List.mem_cons_self p ps))
      show ((p == '.' || p == c) && reMatchHere ps cs) = (p == c && isPre ps cs)
      rw [hp, Bool.false_or,
        ih (fun c2 hc2 => hpat c2 (List.mem_cons_of_mem p hc2)) cs]

theorem reSearch_eq_hasSub (pat : List Char) (hpat : ∀ c ∈ pat, c ≠ '.') :
    ∀ l : List Char, reSearch pat l = hasSub pat l := by
  intro l
  induction l with
  | nil => exact reMatchHere_eq_isPre pat hpat []
  | cons c cs ih =>
    show (reMatchHere pat (c :: cs) || reSearch pat cs)
      = (isPre pat (c :: cs) || hasSub pat cs)
    rw [reMatchHere_eq_isPre pat hpat, ih]

theorem ne_dot_of_alphanum {c : Char} (h : c.isAlphanum) : c ≠ '.' := by
  intro hc
  rw [hc] at h
  exact absurd h (by decide)

/-- C10 amended: pandas applies `TEAM_FILTER` as a regular-expression
search, so for a non-empty filter built only of alphanumeric characters
(hence free of regex metacharacters) a merged record is kept exactly when
its `project_key` is non-null and contains the filter as a substring —
every other record, the null-`project_key` rows of failed lookups
included, is removed, and the utilisation output is computed from the
filtered rows; with `TEAM_FILTER` unset no record is removed from either
output. -/
theorem teamFilterKeepsSubstringMatches :
    (∀ (t : String) (fetch : String → Option MetaRow) (df : List FlatRow)
      (res : List UtilRow × List MergedRow),
      enrich fetch (some t) df = some res →
      t ≠ "" → (∀ c ∈ t.data, c.isAlphanum) →
      ∀ mr : MergedRow,
        (mr ∈ res.2 ↔
          mr ∈ df.flatMap (mergeOne (metaOf fetch df)) ∧
            ∃ pk, mr.project_key = some pk ∧ strHasSub t pk = true)) ∧
    (∀ (fetch : String → Option MetaRow) (df : List FlatRow)
      (res : List UtilRow × List MergedRow),
      enrich fetch none df = some res →
      res.2 = df.flatMap (mergeOne (metaOf fetch df)) ∧
      res.1 = utilOf (df.flatMap (mergeOne (metaOf fetch df)))) := by
  constructor
  · intro t fetch df res hres ht halpha mr
    have hdot : ∀ c ∈ t.toList, c ≠ '.' :=
      fun c hc => ne_dot_of_alphanum (halpha c hc)
    have hfil : res.2
        = (df.flatMap (mergeOne (metaOf fetch df))).filter
          (fun m => match m.project_key with
            | some pk => reSearch t.toList pk.toList
            | none => false) := by
      rw [(enrich_eq_some hres).2.1]
      show teamFilter (some t) (df.flatMap (mergeOne (metaOf fetch df))) = _
      simp only [teamFilter, if_neg ht]
    rw [hfil, List.mem_filter]
    constructor
    · rintro ⟨hmem, hcond⟩
      refine ⟨hmem, ?_⟩
      rcases hpk : mr.project_key with _ | pk
      · rw [hpk] at hcond
        cases hcond
      · rw [hpk] at hcond
        refine ⟨pk, rfl, ?_⟩
        show hasSub t.toList pk.toList = true
        rw [← reSearch_eq_hasSub t.toList hdot]
        exact hcond
    · rintro ⟨hmem, pk, hpk, hsub⟩
      refine ⟨hmem, ?_⟩
      rw [hpk]
      show reSearch t.toList pk.toList = true
      rw [reSearch_eq_hasSub t.toList hdot]
      exact hsub
  · intro fetch df res hres
    obtain ⟨-, h2, h1⟩ := enrich_eq_some hres
    constructor
    · rw [h2]
      rfl
    · rw [h1]
      rfl

/-- C10 as stated is false: with `TEAM_FILTER = "."` the record whose
`project_key` is `"ABC"` is kept even though `"ABC"` does not contain the
string `"."`, because the filter is applied as a regex and `.` matches
any character. -/
theorem teamFilterRegexCounterexample :
    enrich fetchA (some ".") dfA = some enrichResA ∧
    enrichResA.2 = [mkMerged flatA (some metaA)] ∧
    strHasSub "." "ABC" = false ∧
    (mkMerged flatA (some metaA)).project_key = some "ABC" := by
  exact ⟨rfl, rfl, rfl, rfl⟩

/-- Witness for the amended C10 at a concrete input: with
`TEAM_FILTER = "ABC"` the record whose `project_key` is `"ABC"` is kept. -/
theorem teamFilterKeepsSubstringMatches_witness :
    mkMerged flatA (some metaA) ∈ enrichResA.2 := by
  have hres : enrich fetchA (some "ABC") dfA = some enrichResA := rfl
  refine (teamFilterKeepsSubstringMatches.1 "ABC" fetchA dfA enrichResA hres
    (by decide) (by decide) (mkMerged flatA (some metaA))).mpr
    ⟨?_, "ABC", rfl, rfl⟩
  show mkMerged flatA (some metaA) ∈ dfA.flatMap (mergeOne (metaOf fetchA dfA))
  refine List.mem_singleton.mpr ?_
  rfl

/-- The capacity of the `lru_cache` on `account_id_to_name` — the second
definition of the function in the source shadows the first (whose cache
held 2048 entries), so the live cache holds 1024. -/
def LRU_MAXSIZE : Nat := 1024

/-- The memo cache of `account_id_to_name`: entries most-recent first. -/
structure Cache where
  entries : List (String × Option String)

/-- The identifiers currently cached. -/
def cacheKeys (c : Cache) : List String := c.entries.map Prod.fst

/-- One call through the memoised `account_id_to_name`: a hit returns the
cached value and moves the entry to the most-recently-used position; a
miss performs the network request `net`, stores its result, and evicts
the least-recently-used entries beyond the capacity `cap`. The boolean
records whether a network request was made. -/
def cacheCall (net : String → Option String) (cap : Nat) (c : Cache)
    (a : String) : Option String × Cache × Bool :=
  match c.entries.find? (fun e2 => e2.1 == a) with
  | some e => (e.2, ⟨(a, e.2) :: c.entries.filter (fun e2 => !(e2.1 == a))⟩, false)
  | none => (net a, ⟨((a, net a) :: c.entries).take cap⟩, true)

/-- The identifiers for which a run over `ids` (in order) hits the
network, multiplicities included. -/
def netCalls (net : String → Option String) (cap : Nat) :
    Cache → List String → List String
  | _, [] => []
  | c, a :: rest =>
    (if (cacheCall net cap c a).2.2 then [a] else [])
      ++ netCalls net cap (cacheCall net cap c a).2.1 rest

theorem map_fst_filter (l : List (String × Option String)) (a : String) :
    (l.filter (fun e2 => !(e2.1 == a))).map Prod.fst
      = (l.map Prod.fst).filter (fun k => !(k == a)) := by
  induction l with
  | nil => rfl
  | cons e t ih =>
    simp only [List.filter_cons, List.map_cons]
    cases h : (e.1 == a) with
    | true => simpa [h] using ih
    | false => simp [h, ih]

theorem toFinset_cacheKeys_hit {ks : List String} {a : String} (ha : a ∈ ks) :
    (a :: ks.filter (fun k => !(k == a))).toFinset = ks.toFinset := by
  ext x
  simp only [List.toFinset_cons, Finset.mem_insert, List.mem_toFinset,
    List.mem_filter]
  constructor
  · rintro (rfl | ⟨hx, _⟩)
    · exact ha
    · exact hx
  · intro hx
    by_cases hxa : x = a
    · exact Or.inl hxa
    · refine Or.inr ⟨hx, ?_⟩
      rw [beq_eq_false_iff_ne.mpr hxa]
      rfl

theorem nodup_cacheKeys_hit {ks : List String} {a : String} (hnd : ks.Nodup) :
    (a :: ks.filter (fun k => !(k == a))).Nodup := by
  refine List.nodup_cons.mpr ⟨?_, hnd.filter _⟩
  intro hmem
  have h2 := List.of_mem_filter hmem
  simp at h2

theorem netCalls_nodup (net : String → Option String) (cap : Nat) :
    ∀ (ids : List String) (c : Cache),
      (cacheKeys c).Nodup →
      ((cacheKeys c).toFinset ∪ ids.toFinset).card ≤ cap →
      (netCalls net cap c ids).Nodup ∧
        ∀ b ∈ netCalls net cap c ids, b ∉ cacheKeys c := by
  intro ids
  induction ids with
  | nil =>
    intro c _ _
    exact ⟨List.nodup_nil, fun b hb => absurd hb (List.not_mem_nil b)⟩
  | cons a rest ih =>
    intro c hnd hcard
    rcases hfind : c.entries.find? (fun e2 => e2.1 == a) with _ | e
    · have hanotin : a ∉ cacheKeys c := by
        intro hin
        rcases List.mem_map.mp hin with ⟨e0, he0, hfst⟩
        exact (List.find?_eq_none.mp hfind e0 he0) (beq_iff_eq.mpr hfst)
      have hlen : c.entries.length + 1 ≤ cap := by
        have h1 : (cacheKeys c).toFinset.card = c.entries.length := by
          rw [List.toFinset_card_of_nodup hnd]
          exact List.length_map _ _
        have h2 : insert a ((cacheKeys c).toFinset)
            ⊆ (cacheKeys c).toFinset ∪ (a :: rest).toFinset := by
          intro x hx
          rcases Finset.mem_insert.mp hx with rfl | hx2
          · exact Finset.mem_union_right _ (by simp)
          · exact Finset.mem_union_left _ hx2
        have h3 : (cacheKeys c).toFinset.card + 1 ≤ cap := by
          calc (cacheKeys c).toFinset.card + 1
              = (insert a ((cacheKeys c).toFinset)).card :=
                (Finset.card_insert_of_not_mem
                  (fun hmem => hanotin (List.mem_toFinset.mp hmem))).symm
            _ ≤ ((cacheKeys c).toFinset ∪ (a :: rest).toFinset).card :=
                Finset.card_le_card h2
            _ ≤ cap := hcard
        rw [h1] at h3
        exact h3
      have htake : ((a, net a) :: c.entries).take cap = (a, net a) :: c.entries :=
        List.take_of_length_le (by simpa using hlen)
      have hkeys2 : cacheKeys ⟨((a, net a) :: c.entries).take cap⟩
          = a :: cacheKeys c := by
        show (((a, net a) :: c.entries).take cap).map Prod.fst = _
        rw [htake]
        rfl
      have hnd2 : (cacheKeys ⟨((a, net a) :: c.entries).take cap⟩).Nodup := by
        rw [hkeys2]
        exact List.nodup_cons.mpr ⟨hanotin, hnd⟩
      have hcard2 : ((cacheKeys ⟨((a, net a) :: c.entries).take cap⟩).toFinset
          ∪ rest.toFinset).card ≤ cap := by
        rw [hkeys2]
        refine le_trans (Finset.card_le_card ?_) hcard
        intro x hx
        rcases Finset.mem_union.mp hx with hx1 | hx2
        · rw [List.toFinset_cons] at hx1
          rcases Finset.mem_insert.mp hx1 with rfl | hx3
          · exact Finset.mem_union_right _ (by simp)
          · exact Finset.mem_union_left _ hx3
        · refine Finset.mem_union_right _ ?_
          rw [List.toFinset_cons]
          exact Finset.mem_insert_of_mem hx2
      obtain ⟨hih1, hih2⟩ := ih _ hnd2 hcard2
      have hred : netCalls net cap c (a :: rest)
          = a :: netCalls net cap ⟨((a, net a) :: c.entries).take cap⟩ rest := by
        simp only [netCalls, cacheCall, hfind]
        rfl
      rw [hred]
      constructor
      · refine List.nodup_cons.mpr ⟨?_, hih1⟩
        intro hmem
        have h5 := hih2 a hmem
        rw [hkeys2] at h5
        exact h5 (List.mem_cons_self a _)
      · intro b hb
        rcases List.mem_cons.mp hb with rfl | hb2
        · exact hanotin
        · intro hbc
          have h6 := hih2 b hb2
          rw [hkeys2] at h6
          exact h6 (List.mem_cons_of_mem a hbc)
    · have hpe := @List.find?_some _ (fun e2 => e2.1 == a) e c.entries hfind
      have hea : e.1 = a := eq_of_beq hpe
      have ha : a ∈ cacheKeys c := by
        rw [← hea]
        exact List.mem_map.mpr ⟨e, List.mem_of_find?_eq_some hfind, rfl⟩
      have hkeys2 : cacheKeys ⟨(a, e.2) :: c.entries.filter (fun e2 => !(e2.1 == a))⟩
          = a :: (cacheKeys c).filter (fun k => !(k == a)) := by
        show a :: (c.entries.filter (fun e2 => !(e2.1 == a))).map Prod.fst = _
        rw [map_fst_filter]
        rfl
      have hset : (cacheKeys ⟨(a, e.2) ::
            c.entries.filter (fun e2 => !(e2.1 == a))⟩).toFinset
          = (cacheKeys c).toFinset := by
        rw [hkeys2]
        exact toFinset_cacheKeys_hit ha
      have hnd2 : (cacheKeys ⟨(a, e.2) ::
          c.entries.filter (fun e2 => !(e2.1 == a))⟩).Nodup := by
        rw [hkeys2]
        exact nodup_cacheKeys_hit hnd
      have hcard2 : ((cacheKeys ⟨(a, e.2) ::
            c.entries.filter (fun e2 => !(e2.1 == a))⟩).toFinset
          ∪ rest.toFinset).card ≤ cap := by
        rw [hset]
        refine le_trans (Finset.card_le_card ?_) hcard
        intro x hx
        rcases Finset.mem_union.mp hx with hx1 | hx2
        · exact Finset.mem_union_left _ hx1
        · refine Finset.mem_union_right _ ?_
          rw [List.toFinset_cons]
          exact Finset.mem_insert_of_mem hx2
      obtain ⟨hih1, hih2⟩ := ih _ hnd2 hcard2
      have hred : netCalls net cap c (a :: rest)
          = netCalls net cap ⟨(a, e.2) ::
              c.entries.filter (fun e2 => !(e2.1 == a))⟩ rest := by
        simp only [netCalls, cacheCall, hfind]
        rfl
      rw [hred]
      refine ⟨hih1, ?_⟩
      intro b hb hbc
      have h7 := hih2 b hb
      apply h7
      rw [← List.mem_toFinset] at hbc
      rw [← List.mem_toFinset, hset]
      exact hbc

/-- C9 amended: the `user` chain — a display name with non-whitespace
content is used as-is; otherwise, with an account identifier present, the
cached lookup is attempted and a non-empty resulting name is used; a
failed (or empty) lookup falls back to the raw identifier string; and
with no identifier at all the literal `"Unknown"` is used. The lookup is
memoised: any run touching at most `LRU_MAXSIZE` (1024) distinct
identifiers makes at most one network call per distinct identifier. -/
theorem userResolutionChain :
    (∀ (u : String) (uid : Option String) (lookup : String → Option String),
      pyStrip u ≠ "" → resolveUser (some u) uid lookup = u) ∧
    (∀ (user : Option String) (idStr n : String)
      (lookup : String → Option String),
      (user = none ∨ ∃ u, user = some u ∧ pyStrip u = "") →
      lookup idStr = some n → n ≠ "" →
      resolveUser user (some idStr) lookup = n) ∧
    (∀ (user : Option String) (idStr : String)
      (lookup : String → Option String),
      (user = none ∨ ∃ u, user = some u ∧ pyStrip u = "") →
      (lookup idStr = none ∨ lookup idStr = some "") →
      resolveUser user (some idStr) lookup = idStr) ∧
    (∀ (user : Option String) (lookup : String → Option String),
      (user = none ∨ ∃ u, user = some u ∧ pyStrip u = "") →
      resolveUser user none lookup = "Unknown") ∧
    (∀ (net : String → Option String) (ids : List String),
      ids.dedup.length ≤ LRU_MAXSIZE →
      ∀ a : String, (netCalls net LRU_MAXSIZE ⟨[]⟩ ids).count a ≤ 1) := by
  refine ⟨?_, ?_, ?_, ?_, ?_⟩
  · intro u uid lookup h
    simp only [resolveUser, if_neg h]
  · intro user idStr n lookup huser hlk hn
    have hfrom : resolveFromId (some idStr) lookup = n := by
      simp only [resolveFromId, hlk, if_neg hn]
    rcases huser with rfl | ⟨u, rfl, hu⟩
    · simpa only [resolveUser] using hfrom
    · simpa only [resolveUser, if_pos hu] using hfrom
  · intro user idStr lookup huser hlk
    have hfrom : resolveFromId (some idStr) lookup = idStr := by
      rcases hlk with h | h
      · simp only [resolveFromId, h]
      · simp only [resolveFromId, h]
        rfl
    rcases huser with rfl | ⟨u, rfl, hu⟩
    · simpa only [resolveUser] using hfrom
    · simpa only [resolveUser, if_pos hu] using hfrom
  · intro user lookup huser
    rcases huser with rfl | ⟨u, rfl, hu⟩
    · rfl
    · simp only [resolveUser, if_pos hu]
      rfl
  · intro net ids hlen a
    have hcard : ((cacheKeys ⟨[]⟩).toFinset ∪ ids.toFinset).card ≤ LRU_MAXSIZE := by
      have h0 : (cacheKeys ⟨[]⟩).toFinset = (∅ : Finset String) := rfl
      rw [h0, Finset.empty_union, List.card_toFinset]
      exact hlen
    have h := netCalls_nodup net LRU_MAXSIZE ids ⟨[]⟩ List.nodup_nil hcard
    exact List.nodup_iff_count_le_one.mp h.1 a

/-- C9 as stated is false in two corners: a present but all-whitespace
display name is not used (the code demands non-blank content via
`str.strip()` truthiness), and a lookup yielding an empty name is not
used (`if name:` truthiness) — the raw identifier wins instead. -/
theorem userResolutionCounterexample :
    resolveUser (some " ") none netNone = "Unknown" ∧
    (" " : String) ≠ "Unknown" ∧
    resolveUser none (some "5b10ac8d") (fun _ => some "") = "5b10ac8d" ∧
    ("" : String) ≠ "5b10ac8d" := by
  exact ⟨rfl, by decide, rfl, by decide⟩

/-- Witness for the amended C9 at concrete inputs: a non-blank display
name is used as-is, and a three-id run (one id repeated) makes at most
one network call for the repeated id. -/
theorem userResolutionChain_witness :
    resolveUser (some "Alice") none netNone = "Alice" ∧
    (netCalls netNone LRU_MAXSIZE ⟨[]⟩ ["x", "y", "x"]).count "x" ≤ 1 := by
  constructor
  · exact userResolutionChain.1 "Alice" none netNone (by decide)
  · exact userResolutionChain.2.2.2.2 netNone ["x", "y", "x"] (by decide) "x"

end Tempo
